import Mathlib

/-!
Shallow embedding of the core property estimator of the
`universal-alloy-predictor` repository (`src/app.py`): the constant
tables `BASE_HV`, `ELEMENT_FACTOR`, `HT_HV_MULT`, `HT_YS_FRAC`, the
scalar `HV_TO_UTS`, and the three pure operations `estimate_hv`,
`hv_to_uts`, `uts_to_ys`.

Numbers are modelled as exact rationals (ℚ). Python dictionaries are
modelled as association lists `List (String × ℚ)` together with a
lookup-with-default operation `getD` mirroring `dict.get(key, default)`;
iteration over `composition.items()` is iteration over the list.
Python `round(x, 1)` rounds to the nearest multiple of 0.1 with ties to
even, modelled by `roundHalfEven` on `10 * x`.
-/

/-- Model of Python `d.get(k, default)` on an association list: the value
of the first pair whose key is `k`, or `default` when no key matches. -/
def getD : List (String × ℚ) → String → ℚ → ℚ
  | [], _, d => d
  | p :: rest, k, d => if p.1 = k then p.2 else getD rest k d

/-- Table `BASE_HV` of `app.py`: baseline hardness per matrix metal. -/
def BASE_HV : List (String × ℚ) :=
  [("Fe", 120), ("Al", 70), ("Cu", 80), ("Ti", 100), ("Ni", 100),
   ("Co", 110), ("Mg", 60), ("Zn", 70)]

/-- Table `ELEMENT_FACTOR` of `app.py`: hardness contribution per weight
percent for each alloying element. -/
def ELEMENT_FACTOR : List (String × ℚ) :=
  [("C", 180.0), ("Cr", 6.0), ("Ni", 5.0), ("Mo", 9.0), ("Mn", 3.0),
   ("Si", 2.0), ("V", 12.0), ("Ti", 8.0), ("Al", 3.0), ("Cu", 3.0),
   ("Nb", 14.0), ("W", 10.0), ("Co", 6.0), ("Zn", 1.0), ("Sn", 1.0),
   ("Pb", -5.0), ("S", -10.0), ("P", -8.0), ("B", 60.0), ("N", 40.0),
   ("O", -20.0), ("SiO2", -5.0)]

/-- Constant `DEFAULT_ELEM_FACTOR` of `app.py`. -/
def DEFAULT_ELEM_FACTOR : ℚ := 2.0

/-- Table `HT_HV_MULT` of `app.py`: hardness multiplier per heat
treatment. -/
def HT_HV_MULT : List (String × ℚ) :=
  [("Annealing", 0.8), ("Normalizing", 1.0), ("Hardening", 1.2),
   ("Tempering", 1.05), ("Age hardening", 1.25), ("Carburizing", 1.2),
   ("Nitriding", 1.3), ("Cyaniding", 1.25), ("Stress relieving", 0.98),
   ("Quenching", 1.35)]

/-- Table `HT_YS_FRAC` of `app.py`: yield-strength fraction of UTS per
heat treatment. -/
def HT_YS_FRAC : List (String × ℚ) :=
  [("Annealing", 0.55), ("Normalizing", 0.65), ("Hardening", 0.78),
   ("Tempering", 0.72), ("Age hardening", 0.85), ("Carburizing", 0.80),
   ("Nitriding", 0.90), ("Cyaniding", 0.85), ("Stress relieving", 0.75),
   ("Quenching", 0.82)]

/-- Constant `HV_TO_UTS` of `app.py`. -/
def HV_TO_UTS : ℚ := 3.45

/-- Rounding to the nearest integer with ties going to the even integer,
the idealized semantics of Python built-in `round` at exact inputs. -/
def roundHalfEven (q : ℚ) : ℤ :=
  if q - ⌊q⌋ < 1 / 2 then ⌊q⌋
  else if 1 / 2 < q - ⌊q⌋ then ⌊q⌋ + 1
  else if ⌊q⌋ % 2 = 0 then ⌊q⌋ else ⌊q⌋ + 1

/-- Model of Python `round(x, 1)`: round `10 * x` half-to-even, then
divide by 10. -/
def round1 (x : ℚ) : ℚ := (roundHalfEven (10 * x) : ℚ) / 10

/-- Lines 40-52 of `app.py`: the pre-round, pre-clamp hardness value
`(base + c_contrib + contrib) * ht` computed by `estimate_hv`. -/
def estimate_hv_raw (matrix : String) (composition : List (String × ℚ))
    (heat_treatment : String) : ℚ :=
  let base := getD BASE_HV matrix 100
  let ht := getD HT_HV_MULT heat_treatment 1.0
  let C := getD composition "C" 0.0
  let c_contrib :=
    if matrix = "Fe" then
      if C ≤ 0.2 then 120.0 * (C / 0.2)
      else 120.0 + 400.0 * (C - 0.2)
    else 40.0 * C
  let contrib := ((composition.filter (fun p => p.1 ≠ "C")).map
    (fun p => getD ELEMENT_FACTOR p.1 DEFAULT_ELEM_FACTOR * p.2)).sum
  (base + c_contrib + contrib) * ht

/-- Function `estimate_hv` of `app.py`: the raw hardness, rounded to one
decimal place and then clamped via `max(20.0, min(round(hv, 1), 1200.0))`. -/
def estimate_hv (matrix : String) (composition : List (String × ℚ))
    (heat_treatment : String) : ℚ :=
  max 20 (min (round1 (estimate_hv_raw matrix composition heat_treatment)) 1200)

/-- Function `hv_to_uts` of `app.py`. -/
def hv_to_uts (hv : ℚ) : ℚ := hv * HV_TO_UTS

/-- Function `uts_to_ys` of `app.py`. -/
def uts_to_ys (uts : ℚ) (ht : String) : ℚ := uts * getD HT_YS_FRAC ht 0.8

/-- The estimation formula exactly as the specification words it: raw
hardness `(base + carbon_contribution + generic_contribution) *
multiplier`, clamped to `[20.0, 1200.0]` and THEN rounded to one decimal
place (the source rounds before clamping; this definition follows the
spec sentence order, for comparison). -/
def spec_estimate_hardness (matrix : String)
    (composition : List (String × ℚ)) (heat_treatment : String) : ℚ :=
  let base := getD BASE_HV matrix 100
  let multiplier := getD HT_HV_MULT heat_treatment 1.0
  let carbon_pct := getD composition "C" 0.0
  let carbon_contribution :=
    if matrix = "Fe" then
      if carbon_pct ≤ 0.2 then 120.0 * (carbon_pct / 0.2)
      else 120.0 + 400.0 * (carbon_pct - 0.2)
    else 40.0 * carbon_pct
  let generic_contribution := ((composition.filter (fun p => p.1 ≠ "C")).map
    (fun p => getD ELEMENT_FACTOR p.1 2.0 * p.2)).sum
  round1 (max 20 (min ((base + carbon_contribution + generic_contribution) * multiplier) 1200))

/-! Helper lemmas about `getD` (lookup with default). -/

/-- Lookup of a key absent from the association list yields the default. -/
theorem getD_eq_default {xs : List (String × ℚ)} {k : String} {d : ℚ}
    (h : k ∉ xs.map Prod.fst) : getD xs k d = d := by
  induction xs with
  | nil => rfl
  | cons p rest ih =>
    simp only [List.map_cons, List.mem_cons, not_or] at h
    simp only [getD]
    rw [if_neg fun he => h.1 he.symm]
    exact ih h.2

/-- Lookup of a key present in an association list with no duplicate keys
yields the stored value. -/
theorem getD_of_mem {xs : List (String × ℚ)} {k : String} {v d : ℚ}
    (nd : (xs.map Prod.fst).Nodup) (hm : (k, v) ∈ xs) : getD xs k d = v := by
  induction xs with
  | nil => cases hm
  | cons p rest ih =>
    simp only [List.map_cons, List.nodup_cons] at nd
    rcases List.mem_cons.mp hm with he | hmem
    · rw [← he]
      simp [getD]
    · have hk : k ∈ rest.map Prod.fst := List.mem_map.mpr ⟨(k, v), hmem, rfl⟩
      have hne : p.1 ≠ k := fun he => nd.1 (he ▸ hk)
      simp only [getD, if_neg hne]
      exact ih nd.2 hmem

/-- With duplicate-free keys, `getD` is invariant under permutation of the
association list. -/
theorem getD_perm {xs ys : List (String × ℚ)} (h : xs.Perm ys)
    (nd : (xs.map Prod.fst).Nodup) (k : String) (d : ℚ) :
    getD xs k d = getD ys k d := by
  induction h with
  | nil => rfl
  | cons p hrest ih =>
    simp only [List.map_cons, List.nodup_cons] at nd
    simp only [getD]
    split
    · rfl
    · exact ih nd.2
  | swap x y l =>
    simp only [List.map_cons, List.nodup_cons, List.mem_cons, not_or] at nd
    by_cases h1 : y.1 = k <;> by_cases h2 : x.1 = k
    · exact absurd (h1.trans h2.symm) nd.1.1
    · simp [getD, h1, h2]
    · simp [getD, h1, h2]
    · simp [getD, h1, h2]
  | trans h1 h2 ih1 ih2 =>
    rw [ih1 nd, ih2 ((h1.map Prod.fst).nodup_iff.mp nd)]

/-! Helper lemmas about rounding. -/

/-- An integer lower bound on the argument bounds the half-to-even
rounding from below. -/
theorem le_roundHalfEven {q : ℚ} {n : ℤ} (h : (n : ℚ) ≤ q) :
    n ≤ roundHalfEven q := by
  have hf : n ≤ ⌊q⌋ := Int.le_floor.mpr h
  unfold roundHalfEven
  split_ifs <;> omega

/-- An integer upper bound on the argument bounds the half-to-even
rounding from above. -/
theorem roundHalfEven_le {q : ℚ} {n : ℤ} (h : q ≤ (n : ℚ)) :
    roundHalfEven q ≤ n := by
  have hf : ⌊q⌋ ≤ n := by
    have h2 := Int.floor_le_floor h
    simpa using h2
  rcases eq_or_lt_of_le hf with he | hl
  · have hq : q - (⌊q⌋ : ℚ) < 1 / 2 := by
      have h3 : q - (⌊q⌋ : ℚ) ≤ 0 := by
        rw [he]
        linarith
      linarith
    unfold roundHalfEven
    rw [if_pos hq]
    exact hf
  · unfold roundHalfEven
    split_ifs <;> omega

/-- Rounding to one decimal place never drops below an integer lower
bound on the argument. -/
theorem le_round1 {x : ℚ} {n : ℤ} (h : (n : ℚ) ≤ x) : (n : ℚ) ≤ round1 x := by
  unfold round1
  rw [le_div_iff₀ (by norm_num : (0 : ℚ) < 10)]
  have h10 : ((10 * n : ℤ) : ℚ) ≤ 10 * x := by push_cast; linarith
  have h2 := le_roundHalfEven h10
  have h3 : ((10 * n : ℤ) : ℚ) ≤ (roundHalfEven (10 * x) : ℚ) := by
    exact_mod_cast h2
  push_cast at h3 ⊢
  linarith

/-- Rounding to one decimal place never exceeds an integer upper bound on
the argument. -/
theorem round1_le {x : ℚ} {n : ℤ} (h : x ≤ (n : ℚ)) : round1 x ≤ (n : ℚ) := by
  unfold round1
  rw [div_le_iff₀ (by norm_num : (0 : ℚ) < 10)]
  have h10 : 10 * x ≤ ((10 * n : ℤ) : ℚ) := by push_cast; linarith
  have h2 := roundHalfEven_le h10
  have h3 : (roundHalfEven (10 * x) : ℚ) ≤ ((10 * n : ℤ) : ℚ) := by
    exact_mod_cast h2
  push_cast at h3 ⊢
  linarith

/-- Integers are fixed points of rounding to one decimal place. -/
theorem round1_intCast (n : ℤ) : round1 ((n : ℤ) : ℚ) = (n : ℚ) :=
  le_antisymm (round1_le le_rfl) (le_round1 le_rfl)

/-- Rounding to one decimal and clamping to `[20, 1200]` commute, because
the clamp bounds are fixed points of the rounding and rounding is
monotone across integer thresholds. -/
theorem clamp_round_comm (x : ℚ) :
    max 20 (min (round1 x) 1200) = round1 (max 20 (min x 1200)) := by
  have c20 : ((20 : ℤ) : ℚ) = (20 : ℚ) := by norm_num
  have c1200 : ((1200 : ℤ) : ℚ) = (1200 : ℚ) := by norm_num
  rcases le_total x 20 with h | h
  · have h1 : min x 1200 = x := min_eq_left (by linarith)
    have h3 : round1 x ≤ (20 : ℚ) := by
      have h4 := round1_le (x := x) (n := 20) (by rw [c20]; exact h)
      rwa [c20] at h4
    rw [h1, max_eq_left h, min_eq_left (by linarith : round1 x ≤ (1200 : ℚ)),
      max_eq_left h3, ← c20, round1_intCast]
  · rcases le_total x 1200 with h' | h'
    · have hlo : (20 : ℚ) ≤ round1 x := by
        have h4 := le_round1 (x := x) (n := 20) (by rw [c20]; exact h)
        rwa [c20] at h4
      have hhi : round1 x ≤ (1200 : ℚ) := by
        have h4 := round1_le (x := x) (n := 1200) (by rw [c1200]; exact h')
        rwa [c1200] at h4
      rw [min_eq_left h', max_eq_right h, min_eq_left hhi, max_eq_right hlo]
    · have hhi : (1200 : ℚ) ≤ round1 x := by
        have h4 := le_round1 (x := x) (n := 1200) (by rw [c1200]; exact h')
        rwa [c1200] at h4
      rw [min_eq_right h', min_eq_right hhi,
        max_eq_right (by norm_num : (20 : ℚ) ≤ 1200), ← c1200, round1_intCast]

/-! Claim theorems. -/

/-- C1: for every matrix, composition and heat treatment, `estimate_hv`
returns the raw hardness `(base + carbon_contribution +
generic_contribution) * multiplier` clamped to `[20.0, 1200.0]` and then
rounded to one decimal place, with the base, multiplier, carbon and
generic contributions as the specification describes them. -/
theorem C1_estimate_formula (m : String) (comp : List (String × ℚ)) (ht : String) :
    estimate_hv m comp ht = spec_estimate_hardness m comp ht := by
  simp only [estimate_hv, spec_estimate_hardness, estimate_hv_raw]
  exact clamp_round_comm _

/-- C2: the output of `estimate_hv` always lies in `[20.0, 1200.0]`;
when the raw (pre-clamp) hardness exceeds 1200 the output is exactly
1200, and when it is below 20 the output is exactly 20. -/
theorem C2_output_clamped (m : String) (comp : List (String × ℚ)) (ht : String) :
    (20 ≤ estimate_hv m comp ht ∧ estimate_hv m comp ht ≤ 1200) ∧
    (1200 < estimate_hv_raw m comp ht → estimate_hv m comp ht = 1200) ∧
    (estimate_hv_raw m comp ht < 20 → estimate_hv m comp ht = 20) := by
  unfold estimate_hv
  refine ⟨⟨le_max_left _ _, max_le (by norm_num) (min_le_right _ _)⟩, ?_, ?_⟩
  · intro hgt
    have hc : ((1200 : ℤ) : ℚ) = (1200 : ℚ) := by norm_num
    have hr : (1200 : ℚ) ≤ round1 (estimate_hv_raw m comp ht) := by
      have h4 := le_round1 (x := estimate_hv_raw m comp ht) (n := 1200)
        (by rw [hc]; exact hgt.le)
      rwa [hc] at h4
    rw [min_eq_right hr, max_eq_right (by norm_num : (20 : ℚ) ≤ 1200)]
  · intro hlt
    have hc : ((20 : ℤ) : ℚ) = (20 : ℚ) := by norm_num
    have hr : round1 (estimate_hv_raw m comp ht) ≤ (20 : ℚ) := by
      have h4 := round1_le (x := estimate_hv_raw m comp ht) (n := 20)
        (by rw [hc]; exact hlt.le)
      rwa [hc] at h4
    rw [min_eq_left (by linarith : round1 (estimate_hv_raw m comp ht) ≤ (1200 : ℚ)),
      max_eq_left hr]

/-- Witness for C2 at a concrete saturating input: 100 wt% boron in an
iron matrix drives the raw hardness to 6120, and the returned value is
exactly 1200. -/
theorem C2_output_clamped_witness :
    1200 < estimate_hv_raw "Fe" [("B", 100)] "Normalizing" ∧
    estimate_hv "Fe" [("B", 100)] "Normalizing" = 1200 := by
  have h : 1200 < estimate_hv_raw "Fe" [("B", 100)] "Normalizing" := by
    simp [estimate_hv_raw, getD, BASE_HV, HT_HV_MULT, ELEMENT_FACTOR,
      DEFAULT_ELEM_FACTOR]
    norm_num
  exact ⟨h, (C2_output_clamped "Fe" [("B", 100)] "Normalizing").2.1 h⟩

/-- Evaluation of `estimate_hv` on pure iron with 0.2 wt% carbon under
normalizing: base 120 for iron plus carbon contribution 120 gives 240. -/
theorem estimate_fe_c02_eq : estimate_hv "Fe" [("C", 0.2)] "Normalizing" = 240 := by
  simp [estimate_hv, estimate_hv_raw, getD, BASE_HV, HT_HV_MULT]
  norm_num [round1, roundHalfEven, min_def, max_def]

/-- C3 counterexample: the claimed value 220.0 is wrong; the code returns
240.0 because `BASE_HV` maps "Fe" to 120, not to the default 100. -/
theorem C3_counterexample : estimate_hv "Fe" [("C", 0.2)] "Normalizing" ≠ 220 := by
  rw [estimate_fe_c02_eq]
  norm_num

/-- C3 amended: `estimate_hv("Fe", {"C": 0.2}, "Normalizing")` returns
exactly 240.0 (iron base 120 + carbon contribution 120 at the
breakpoint, multiplier 1.0). -/
theorem C3_amended_value : estimate_hv "Fe" [("C", 0.2)] "Normalizing" = 240 :=
  estimate_fe_c02_eq

/-- Evaluation of `estimate_hv` on iron with 0.4 wt% carbon under
normalizing: base 120 plus carbon contribution 120 + 400*0.2 = 200 gives
320. -/
theorem estimate_fe_c04_eq : estimate_hv "Fe" [("C", 0.4)] "Normalizing" = 320 := by
  simp [estimate_hv, estimate_hv_raw, getD, BASE_HV, HT_HV_MULT]
  norm_num [round1, roundHalfEven, min_def, max_def]

/-- C4 counterexample: the claimed value 300.0 is wrong; the code returns
320.0 because `BASE_HV` maps "Fe" to 120, not to the default 100. -/
theorem C4_counterexample : estimate_hv "Fe" [("C", 0.4)] "Normalizing" ≠ 300 := by
  rw [estimate_fe_c04_eq]
  norm_num

/-- C4 amended: `estimate_hv("Fe", {"C": 0.4}, "Normalizing")` returns
exactly 320.0 (iron base 120 + carbon contribution 200, multiplier 1.0). -/
theorem C4_amended_value : estimate_hv "Fe" [("C", 0.4)] "Normalizing" = 320 :=
  estimate_fe_c04_eq

/-- C5: unknown matrix and heat-treatment names resolve to the documented
defaults (base 100, hardness multiplier 1.0, yield fraction 0.8) in all
three operations, and `estimate_hv("Unobtainium", {}, "Mystery")` is
exactly 100.0. -/
theorem C5_unknown_defaults (m ht : String) (uts : ℚ)
    (hm : m ∉ BASE_HV.map Prod.fst)
    (h1 : ht ∉ HT_HV_MULT.map Prod.fst)
    (h2 : ht ∉ HT_YS_FRAC.map Prod.fst) :
    getD BASE_HV m 100 = 100 ∧ getD HT_HV_MULT ht 1.0 = 1.0 ∧
    uts_to_ys uts ht = uts * 0.8 ∧
    estimate_hv "Unobtainium" [] "Mystery" = 100 := by
  refine ⟨getD_eq_default hm, getD_eq_default h1, ?_, ?_⟩
  · rw [uts_to_ys, getD_eq_default h2]
  · simp [estimate_hv, estimate_hv_raw, getD, BASE_HV, HT_HV_MULT]
    norm_num [round1, roundHalfEven, min_def, max_def]

/-- Witness for C5 at the concrete unknown names "Unobtainium" and
"Mystery". -/
theorem C5_unknown_defaults_witness :
    "Unobtainium" ∉ BASE_HV.map Prod.fst ∧
    "Mystery" ∉ HT_HV_MULT.map Prod.fst ∧
    "Mystery" ∉ HT_YS_FRAC.map Prod.fst ∧
    (getD BASE_HV "Unobtainium" 100 = 100 ∧
     getD HT_HV_MULT "Mystery" 1.0 = 1.0 ∧
     uts_to_ys 7 "Mystery" = 7 * 0.8 ∧
     estimate_hv "Unobtainium" [] "Mystery" = 100) := by
  have hm : "Unobtainium" ∉ BASE_HV.map Prod.fst := by simp [BASE_HV]
  have h1 : "Mystery" ∉ HT_HV_MULT.map Prod.fst := by simp [HT_HV_MULT]
  have h2 : "Mystery" ∉ HT_YS_FRAC.map Prod.fst := by simp [HT_YS_FRAC]
  exact ⟨hm, h1, h2, C5_unknown_defaults "Unobtainium" "Mystery" 7 hm h1 h2⟩

/-- C6: `uts_to_ys` multiplies its input by the table fraction for the
given heat treatment, or by 0.8 for a name absent from the table, with no
clamping or rounding; in particular `uts_to_ys(345.0, "Hardening")` is
exactly 269.1. -/
theorem C6_uts_to_ys_spec (uts : ℚ) (ht : String) :
    (∀ f : ℚ, (ht, f) ∈ HT_YS_FRAC → uts_to_ys uts ht = uts * f) ∧
    (ht ∉ HT_YS_FRAC.map Prod.fst → uts_to_ys uts ht = uts * 0.8) ∧
    uts_to_ys 345 "Hardening" = 269.1 := by
  refine ⟨?_, ?_, ?_⟩
  · intro f hf
    have nd : (HT_YS_FRAC.map Prod.fst).Nodup := by simp [HT_YS_FRAC]
    rw [uts_to_ys, getD_of_mem nd hf]
  · intro h
    rw [uts_to_ys, getD_eq_default h]
  · simp [uts_to_ys, getD, HT_YS_FRAC]
    norm_num

/-- Witness for C6 at the table entry ("Hardening", 0.78) and
uts = 345. -/
theorem C6_uts_to_ys_spec_witness :
    (("Hardening", (0.78 : ℚ)) ∈ HT_YS_FRAC) ∧
    uts_to_ys 345 "Hardening" = 345 * 0.78 := by
  have hm : (("Hardening", (0.78 : ℚ)) ∈ HT_YS_FRAC) := by simp [HT_YS_FRAC]
  exact ⟨hm, (C6_uts_to_ys_spec 345 "Hardening").1 0.78 hm⟩

/-- C7: `hv_to_uts` is the pure linear scaling by the fixed constant
3.45 with no clamping or rounding, and `hv_to_uts(100.0)` is exactly
345.0. -/
theorem C7_hv_to_uts_linear (hv : ℚ) :
    hv_to_uts hv = hv * 3.45 ∧ hv_to_uts 100 = 345 :=
  ⟨rfl, by norm_num [hv_to_uts, HV_TO_UTS]⟩

/-- C8: permuting the entries of a composition with duplicate-free
element symbols does not change the value of `estimate_hv`. -/
theorem C8_perm_invariance (m ht : String) (c₁ c₂ : List (String × ℚ))
    (hp : c₁.Perm c₂) (nd : (c₁.map Prod.fst).Nodup) :
    estimate_hv m c₁ ht = estimate_hv m c₂ ht := by
  have hC : getD c₁ "C" 0.0 = getD c₂ "C" 0.0 := getD_perm hp nd "C" 0.0
  have hs : ((c₁.filter (fun p => p.1 ≠ "C")).map
        (fun p => getD ELEMENT_FACTOR p.1 DEFAULT_ELEM_FACTOR * p.2)).sum =
      ((c₂.filter (fun p => p.1 ≠ "C")).map
        (fun p => getD ELEMENT_FACTOR p.1 DEFAULT_ELEM_FACTOR * p.2)).sum :=
    ((hp.filter _).map _).sum_eq
  simp only [estimate_hv, estimate_hv_raw]
  rw [hC, hs]

/-- Witness for C8 on the two-element composition {Cr: 1, Ni: 2} and its
reversal. -/
theorem C8_perm_invariance_witness :
    (([("Cr", (1 : ℚ)), ("Ni", 2)]).Perm [("Ni", (2 : ℚ)), ("Cr", 1)]) ∧
    (([("Cr", (1 : ℚ)), ("Ni", 2)]).map Prod.fst).Nodup ∧
    estimate_hv "Fe" [("Cr", 1), ("Ni", 2)] "Quenching" =
      estimate_hv "Fe" [("Ni", 2), ("Cr", 1)] "Quenching" := by
  have hp : (([("Cr", (1 : ℚ)), ("Ni", 2)]).Perm [("Ni", (2 : ℚ)), ("Cr", 1)]) :=
    List.Perm.swap _ _ _
  have nd : (([("Cr", (1 : ℚ)), ("Ni", 2)]).map Prod.fst).Nodup := by simp
  exact ⟨hp, nd, C8_perm_invariance "Fe" "Quenching" _ _ hp nd⟩

/-- Every yield fraction the lookup can produce, the default 0.8
included, is at most 0.9. -/
theorem HT_YS_FRAC_getD_le (ht : String) : getD HT_YS_FRAC ht 0.8 ≤ 0.9 := by
  simp only [HT_YS_FRAC, getD]
  split_ifs <;> norm_num

/-- C9: for nonnegative uts, the derived yield strength never exceeds
the ultimate tensile strength, because every table fraction and the 0.8
default lie in (0, 1) with maximum 0.9. -/
theorem C9_ys_le_uts (uts : ℚ) (ht : String) (h : 0 ≤ uts) :
    uts_to_ys uts ht ≤ uts ∧ ∀ p ∈ HT_YS_FRAC, 0 < p.2 ∧ p.2 ≤ 0.9 := by
  constructor
  · rw [uts_to_ys]
    have h1 : getD HT_YS_FRAC ht 0.8 ≤ 1 :=
      (HT_YS_FRAC_getD_le ht).trans (by norm_num)
    exact mul_le_of_le_one_right h h1
  · intro p hp
    fin_cases hp <;> norm_num

/-- Witness for C9 at uts = 345 and the "Hardening" treatment. -/
theorem C9_ys_le_uts_witness : (0 : ℚ) ≤ 345 ∧ uts_to_ys 345 "Hardening" ≤ 345 :=
  ⟨by norm_num, (C9_ys_le_uts 345 "Hardening" (by norm_num)).1⟩

/-- C10: `ELEMENT_FACTOR` assigns negative factors to Pb, S, P and O, so
`estimate_hv` is not monotone in composition: raising the sulfur weight
percent from 1 to 2 strictly lowers the result. -/
theorem C10_negative_factors :
    getD ELEMENT_FACTOR "Pb" 2.0 = -5 ∧ getD ELEMENT_FACTOR "S" 2.0 = -10 ∧
    getD ELEMENT_FACTOR "P" 2.0 = -8 ∧ getD ELEMENT_FACTOR "O" 2.0 = -20 ∧
    estimate_hv "Fe" [("S", 2)] "Normalizing" <
      estimate_hv "Fe" [("S", 1)] "Normalizing" := by
  refine ⟨?_, ?_, ?_, ?_, ?_⟩
  · simp [ELEMENT_FACTOR, getD]
    norm_num
  · simp [ELEMENT_FACTOR, getD]
    norm_num
  · simp [ELEMENT_FACTOR, getD]
    norm_num
  · simp [ELEMENT_FACTOR, getD]
    norm_num
  · have e1 : estimate_hv "Fe" [("S", 2)] "Normalizing" = 100 := by
      simp [estimate_hv, estimate_hv_raw, getD, BASE_HV, HT_HV_MULT,
        ELEMENT_FACTOR, DEFAULT_ELEM_FACTOR]
      norm_num [round1, roundHalfEven, min_def, max_def]
    have e2 : estimate_hv "Fe" [("S", 1)] "Normalizing" = 110 := by
      simp [estimate_hv, estimate_hv_raw, getD, BASE_HV, HT_HV_MULT,
        ELEMENT_FACTOR, DEFAULT_ELEM_FACTOR]
      norm_num [round1, roundHalfEven, min_def, max_def]
    rw [e1, e2]
    norm_num
